import Mathlib

/-!
Shallow embedding of the search and detection core of `src/search.ts`
(dex-bridge), together with proofs of the specification claims.

Strings of the TypeScript runtime are modelled as lists of Unicode code
points (`JSStr := List Nat`).  The external collaborators (the Unicode
tables of the JS runtime and the `wanakana` transliteration library) are
not part of the repository; they are modelled from the spec (§4.1, §6):
`nfkcChar` folds the full-width ASCII compatibility block, `lowerChar`
lower-cases ASCII letters, `isSpaceChar`/`isPunctSymChar` are decidable
renderings of the `\s` and `\p{P}\p{S}` character classes, and
`toHiraganaChar`/`toKanaModel`/`toRomajiModel` are the three
script-conversion primitives of the transliteration collaborator.
-/

namespace DexBridge

/-- A JavaScript string, modelled as its list of Unicode code points. -/
abbrev JSStr := List Nat

/-- Convert a Lean string literal into the code-point model. -/
def str (s : String) : JSStr :=
  s.data.map Char.toNat

/-- Modelled from the spec: Unicode compatibility (NFKC) normalization of a
single code point, restricted to the full-width ASCII block (U+FF01–U+FF5E),
which folds to plain ASCII.  All other code points are left unchanged. -/
def nfkcChar (n : Nat) : Nat :=
  if 0xFF01 ≤ n ∧ n ≤ 0xFF5E then n - 0xFEE0 else n

/-- Modelled from the spec: `String.prototype.toLowerCase` on one code point,
restricted to ASCII letters. -/
def lowerChar (n : Nat) : Nat :=
  if 0x41 ≤ n ∧ n ≤ 0x5A then n + 0x20 else n

/-- Modelled from the spec: the JS regex class `\s` (whitespace). -/
def isSpaceChar (n : Nat) : Bool :=
  n = 0x9 || n = 0xA || n = 0xB || n = 0xC || n = 0xD || n = 0x20 ||
  n = 0xA0 || n = 0x1680 || (0x2000 ≤ n && n ≤ 0x200A) ||
  n = 0x2028 || n = 0x2029 || n = 0x202F || n = 0x205F || n = 0x3000 ||
  n = 0xFEFF

/-- Modelled from the spec: the JS regex class `[\p{P}\p{S}_]`
(punctuation, symbols and underscore), rendered as the ASCII
punctuation/symbol ranges plus common CJK punctuation. -/
def isPunctSymChar (n : Nat) : Bool :=
  (0x21 ≤ n && n ≤ 0x2F) || (0x3A ≤ n && n ≤ 0x40) ||
  (0x5B ≤ n && n ≤ 0x60) || (0x7B ≤ n && n ≤ 0x7E) ||
  n = 0x3001 || n = 0x3002 || n = 0x30FB

/-- Modelled from the spec (§6, transliteration collaborator):
secondary-script → secondary-baseline conversion (`wanakana.toHiragana`):
katakana U+30A1–U+30F6 shifts down to the corresponding hiragana;
all other content is left unchanged. -/
def toHiraganaChar (n : Nat) : Nat :=
  if 0x30A1 ≤ n ∧ n ≤ 0x30F6 then n - 0x60 else n

/-- The `SMALL_KANA_MAP` table of `search.ts`: small hiragana fold to their
full-size base forms; every other code point is left unchanged. -/
def smallKanaFold (n : Nat) : Nat :=
  if n = 0x3041 then 0x3042
  else if n = 0x3043 then 0x3044
  else if n = 0x3045 then 0x3046
  else if n = 0x3047 then 0x3048
  else if n = 0x3049 then 0x304A
  else if n = 0x3063 then 0x3064
  else if n = 0x3083 then 0x3084
  else if n = 0x3085 then 0x3086
  else if n = 0x3087 then 0x3088
  else if n = 0x308E then 0x308F
  else n

/-- `normalizeKanaText` of `search.ts`: convert to the hiragana baseline,
drop the prolonged-sound mark `ー` (U+30FC), and fold small kana. -/
def normalizeKanaText (l : JSStr) : JSStr :=
  (l.map toHiraganaChar).filterMap
    (fun c => if c = 0x30FC then none else some (smallKanaFold c))

/-- Drop leading and trailing whitespace (`String.prototype.trim`). -/
def trimStr (l : JSStr) : JSStr :=
  ((l.dropWhile isSpaceChar).reverse.dropWhile isSpaceChar).reverse

/-- `normalize` of `search.ts`: NFKC, lowercase, trim, remove
whitespace/punctuation/symbols, then kana baseline folding. -/
def normalize (l : JSStr) : JSStr :=
  normalizeKanaText
    ((trimStr ((l.map nfkcChar).map lowerChar)).filter
      (fun c => !(isSpaceChar c || isPunctSymChar c)))

/-- ASCII lowercase letter or digit. -/
def isLowerAlnum (n : Nat) : Bool :=
  (0x61 ≤ n && n ≤ 0x7A) || (0x30 ≤ n && n ≤ 0x39)

/-- ASCII letter (either case) or digit. -/
def isAsciiAlnum (n : Nat) : Bool :=
  (0x41 ≤ n && n ≤ 0x5A) || (0x61 ≤ n && n ≤ 0x7A) || (0x30 ≤ n && n ≤ 0x39)

/-- `normalizeLatin` of `search.ts`: NFKC, lowercase, keep only `[a-z0-9]`. -/
def normalizeLatin (l : JSStr) : JSStr :=
  ((l.map nfkcChar).map lowerChar).filter isLowerAlnum

/-- ASCII vowel `aeiou`. -/
def isVowel (n : Nat) : Bool :=
  n = 0x61 || n = 0x65 || n = 0x69 || n = 0x6F || n = 0x75

/-- Scanner for `stripLongVowels`: drop the current character when it
repeats the previously emitted character and that character is a vowel. -/
def stripLongVowelsGo (prev : Nat) : JSStr → JSStr
  | [] => []
  | c :: rest =>
    if isVowel prev && c = prev then stripLongVowelsGo prev rest
    else c :: stripLongVowelsGo c rest

/-- `stripLongVowels` of `search.ts`: the regex `([aeiou])\1+` replaced by
`$1`, i.e. a run of identical vowels collapses to a single one. -/
def stripLongVowels : JSStr → JSStr
  | [] => []
  | c :: rest => c :: stripLongVowelsGo c rest

/-- One global `replace` of the two-code-point pattern `[p₁,p₂]` by
`[q₁,p₂]`, scanning left to right without overlap. -/
def replaceDigraph (p₁ p₂ q₁ : Nat) : JSStr → JSStr
  | [] => []
  | [c] => [c]
  | c₁ :: c₂ :: rest =>
    if c₁ = p₁ ∧ c₂ = p₂ then q₁ :: p₂ :: replaceDigraph p₁ p₂ q₁ rest
    else c₁ :: replaceDigraph p₁ p₂ q₁ (c₂ :: rest)

/-- Insertion into a JavaScript `Set` rendered as an insertion-ordered
duplicate-free list. -/
def setAdd (l : List JSStr) (a : JSStr) : List JSStr :=
  if a ∈ l then l else l ++ [a]

/-- `romajiToleranceVariants` of `search.ts`: the normalized Latin base,
its `ca/co/cu → ka/ko/ku` rewrite, and the long-vowel-stripped form of
every variant so far, as an insertion-ordered deduplicated list. -/
def romajiToleranceVariants (value : JSStr) : List JSStr :=
  let base := normalizeLatin value
  if base = [] then []
  else
    let variants := setAdd [base]
      (replaceDigraph 0x63 0x75 0x6B
        (replaceDigraph 0x63 0x6F 0x6B
          (replaceDigraph 0x63 0x61 0x6B base)))
    variants.foldl (fun vs current => setAdd vs (stripLongVowels current)) variants

/-- Modelled from the spec (§6, transliteration collaborator):
Latin → secondary-script transliteration (`wanakana.toKana`), as a minimal
deterministic converter: plain vowels and the `k`-row become hiragana,
anything else passes through unchanged. -/
def toKanaModel : JSStr → JSStr
  | [] => []
  | 0x61 :: rest => 0x3042 :: toKanaModel rest
  | 0x69 :: rest => 0x3044 :: toKanaModel rest
  | 0x75 :: rest => 0x3046 :: toKanaModel rest
  | 0x65 :: rest => 0x3048 :: toKanaModel rest
  | 0x6F :: rest => 0x304A :: toKanaModel rest
  | 0x6B :: 0x61 :: rest => 0x304B :: toKanaModel rest
  | 0x6B :: 0x69 :: rest => 0x304D :: toKanaModel rest
  | 0x6B :: 0x75 :: rest => 0x304F :: toKanaModel rest
  | 0x6B :: 0x65 :: rest => 0x3051 :: toKanaModel rest
  | 0x6B :: 0x6F :: rest => 0x3053 :: toKanaModel rest
  | c :: rest => c :: toKanaModel rest

/-- Modelled from the spec (§6, transliteration collaborator):
secondary-script → Latin romanization (`wanakana.toRomaji`), the inverse
direction of `toKanaModel`: hiragana/katakana vowels and the `k`-row become
romaji, anything else passes through unchanged. -/
def toRomajiModel : JSStr → JSStr
  | [] => []
  | c :: rest =>
    let h := toHiraganaChar c
    if h = 0x3042 then 0x61 :: toRomajiModel rest
    else if h = 0x3044 then 0x69 :: toRomajiModel rest
    else if h = 0x3046 then 0x75 :: toRomajiModel rest
    else if h = 0x3048 then 0x65 :: toRomajiModel rest
    else if h = 0x304A then 0x6F :: toRomajiModel rest
    else if h = 0x304B then 0x6B :: 0x61 :: toRomajiModel rest
    else if h = 0x304D then 0x6B :: 0x69 :: toRomajiModel rest
    else if h = 0x304F then 0x6B :: 0x75 :: toRomajiModel rest
    else if h = 0x3051 then 0x6B :: 0x65 :: toRomajiModel rest
    else if h = 0x3053 then 0x6B :: 0x6F :: toRomajiModel rest
    else c :: toRomajiModel rest

/-- Modelled Unicode script class of the regex
`[\p{Script=Hiragana}\p{Script=Katakana}\p{Script=Han}ー]` (`JP_CHAR_RE`). -/
def isJPChar (n : Nat) : Bool :=
  (0x3041 ≤ n && n ≤ 0x3096) || (0x30A1 ≤ n && n ≤ 0x30FA) ||
  (0x4E00 ≤ n && n ≤ 0x9FFF) || n = 0x30FC

/-- ASCII letter (`[A-Za-z]`, `LATIN_RUN_RE`). -/
def isAsciiLetter (n : Nat) : Bool :=
  (0x41 ≤ n && n ≤ 0x5A) || (0x61 ≤ n && n ≤ 0x7A)

/-- Character class kept by `TOKEN_SPLIT_RE` (its negation is the
separator class): Japanese script characters and ASCII alphanumerics.
Note that `ー` is *not* in this class. -/
def isTokenChar (n : Nat) : Bool :=
  (0x3041 ≤ n && n ≤ 0x3096) || (0x30A1 ≤ n && n ≤ 0x30FA) ||
  (0x4E00 ≤ n && n ≤ 0x9FFF) || isAsciiAlnum n

/-- Maximal runs of characters satisfying `p`, in order, empties dropped.
This is both `text.split(sep).filter(Boolean)` for a separator regex that
is the negation of `p`, and `text.match(run-regex)` for runs of `p`. -/
def splitRuns (p : Nat → Bool) (l : JSStr) : List JSStr :=
  let fin := l.foldr
    (fun c st =>
      if p c then (c :: st.1, st.2)
      else ([], if st.1 = [] then st.2 else st.1 :: st.2))
    (([], []) : JSStr × List JSStr)
  if fin.1 = [] then fin.2 else fin.1 :: fin.2

/-- `normalizedVariants` of `search.ts`. -/
def normalizedVariants (value : JSStr) : List JSStr :=
  let base := normalize value
  if base = [] then []
  else
    let variants := [base]
    let variants :=
      if value.any isAsciiLetter then
        (romajiToleranceVariants value).foldl
          (fun vs romaji =>
            setAdd (setAdd vs (normalize romaji)) (normalize (toKanaModel romaji)))
          variants
      else variants
    let variants :=
      if value.any isJPChar then
        let romaji := toRomajiModel value
        let vs := setAdd variants (normalize romaji)
        (romajiToleranceVariants romaji).foldl
          (fun vs tolerant => setAdd vs (normalize tolerant)) vs
      else variants
    variants

/-- The `DexEntry` record of `types.ts` (display-only fields included). -/
structure DexEntry where
  dex : Nat
  en : JSStr
  ja : JSStr
  roomaji : Option JSStr := none
  aliases : Option (List JSStr) := none
  types : Option (List JSStr) := none
  generation : Option Nat := none
  evolution : Option (List Nat) := none
deriving DecidableEq, Repr

/-- The `PreparedEntry` record of `search.ts`. -/
structure PreparedEntry where
  entry : DexEntry
  values : List JSStr
deriving DecidableEq, Repr

/-- A string-keyed JavaScript `Map`, rendered as an association list where
`set` prepends and `get` takes the most recent binding. -/
abbrev JMap := List (JSStr × DexEntry)

/-- `Map.prototype.set`: the new binding shadows any earlier one. -/
def mapSet (m : JMap) (k : JSStr) (v : DexEntry) : JMap :=
  (k, v) :: m

/-- `Map.prototype.get`: the most recent binding for the key, if any. -/
def mapGet : JMap → JSStr → Option DexEntry
  | [], _ => none
  | (k2, v) :: rest, k => if k = k2 then some v else mapGet rest k

/-- The `SearchIndexes` record of `search.ts`.  The Fuse.js handle is an
external collaborator; it is modelled as an opaque query function. -/
structure SearchIndexes where
  prepared : List PreparedEntry
  fuse : JSStr → Nat → List DexEntry
  enMap : JMap
  jaMap : JMap
  roomajiMap : JMap
  aliasMap : JMap

/-- The value collection of one `PreparedEntry` as computed by
`createIndexes`: `[en, ja, roomaji ?? "", ...aliases].flatMap(normalizedVariants)`. -/
def entryValues (e : DexEntry) : List JSStr :=
  ([e.en, e.ja, e.roomaji.getD []] ++ e.aliases.getD []).flatMap normalizedVariants

/-- Keys inserted into `enMap` for one entry. -/
def enKeys (e : DexEntry) : List JSStr :=
  normalizedVariants e.en

/-- Keys inserted into `jaMap` for one entry. -/
def jaKeys (e : DexEntry) : List JSStr :=
  normalizedVariants e.ja

/-- Keys inserted into `roomajiMap` for one entry; the source guards with
JS truthiness (`if (entry.roomaji)`), so an empty string contributes nothing. -/
def roomajiKeys (e : DexEntry) : List JSStr :=
  match e.roomaji with
  | some r => if r = [] then [] else normalizedVariants r
  | none => []

/-- Keys inserted into `aliasMap` for one entry. -/
def aliasKeys (e : DexEntry) : List JSStr :=
  (e.aliases.getD []).flatMap normalizedVariants

/-- Insert every key of `keys` mapping to `e` (`map.set(key, entry)`). -/
def insertKeys (m : JMap) (keys : List JSStr) (e : DexEntry) : JMap :=
  keys.foldl (fun m k => mapSet m k e) m

/-- Accumulate one of the four exact-match maps over the catalog in input
order (the single `for (const entry of entries)` loop of `createIndexes`,
split per accumulated structure; the five accumulations are independent). -/
def buildMap (fieldKeys : DexEntry → List JSStr) (entries : List DexEntry) : JMap :=
  entries.foldl (fun m e => insertKeys m (fieldKeys e) e) []

/-- `createIndexes` of `search.ts`; `fuseBuild` is the external
`new Fuse(entries, …)` constructor. -/
def createIndexes (fuseBuild : List DexEntry → JSStr → Nat → List DexEntry)
    (entries : List DexEntry) : SearchIndexes :=
  { prepared := entries.map (fun e => ⟨e, entryValues e⟩)
    fuse := fuseBuild entries
    enMap := buildMap enKeys entries
    jaMap := buildMap jaKeys entries
    roomajiMap := buildMap roomajiKeys entries
    aliasMap := buildMap aliasKeys entries }

/-- Does `q` occur inside `v` (`String.prototype.includes`)? -/
def isInfixOfList (q v : JSStr) : Bool :=
  v.tails.any (fun t => q.isPrefixOf t)

/-- `rankValue` of `search.ts`: 1 exact, 2 starts-with, 3 contains. -/
def rankValue (query candidate : JSStr) : Option Nat :=
  if query = [] ∨ candidate = [] then none
  else if candidate = query then some 1
  else if query.isPrefixOf candidate then some 2
  else if isInfixOfList query candidate then some 3
  else none

/-- A ranked search hit (`Ranked` of `search.ts`). -/
structure Ranked where
  entry : DexEntry
  rank : Nat
deriving DecidableEq, Repr

/-- The JS comparator `(a, b) => a.dex - b.dex` as an order relation.
`Array.prototype.sort` is a stable sort, modelled by `List.insertionSort`. -/
def dexRel (a b : DexEntry) : Prop :=
  a.dex ≤ b.dex

instance : DecidableRel dexRel :=
  fun a b => inferInstanceAs (Decidable (a.dex ≤ b.dex))

instance : IsTotal DexEntry dexRel :=
  ⟨fun a b => Nat.le_total a.dex b.dex⟩

instance : IsTrans DexEntry dexRel :=
  ⟨fun _ _ _ h1 h2 => Nat.le_trans h1 h2⟩

/-- The JS comparator `(a, b) => a.rank - b.rank || a.entry.dex - b.entry.dex`
as an order relation. -/
def rankedRel (a b : Ranked) : Prop :=
  a.rank < b.rank ∨ (a.rank = b.rank ∧ a.entry.dex ≤ b.entry.dex)

instance : DecidableRel rankedRel :=
  fun a b =>
    inferInstanceAs (Decidable (a.rank < b.rank ∨ (a.rank = b.rank ∧ a.entry.dex ≤ b.entry.dex)))

/-- The inner `for (const value of prepared.values)` loop of `fastSearch`:
update the running best rank, breaking as soon as it reaches 1. -/
def innerRankLoop (q : JSStr) : List JSStr → Option Nat → Option Nat
  | [], best => best
  | v :: rest, best =>
    match rankValue q v with
    | none => innerRankLoop q rest best
    | some r =>
      let best2 := match best with
        | none => some r
        | some b => if r < b then some r else some b
      if best2 = some 1 then best2 else innerRankLoop q rest best2

/-- The outer `for (const q of queries)` loop of `fastSearch`. -/
def bestRankLoop (values : List JSStr) : List JSStr → Option Nat → Option Nat
  | [], best => best
  | q :: qs, best =>
    let best2 := innerRankLoop q values best
    if best2 = some 1 then best2 else bestRankLoop values qs best2

/-- `fastSearch` of `search.ts`. -/
def fastSearch (idx : SearchIndexes) (query : JSStr) (limit : Nat) : List DexEntry :=
  let trimmed := trimStr query
  if trimmed = [] then
    (List.insertionSort dexRel (idx.prepared.map (·.entry))).take limit
  else
    let queries := normalizedVariants trimmed
    if queries = [] then []
    else
      let ranked := idx.prepared.filterMap (fun p =>
        (bestRankLoop p.values queries none).map (fun r => Ranked.mk p.entry r))
      ((List.insertionSort rankedRel ranked).take limit).map (·.entry)

/-- `fuzzySearch` of `search.ts`: delegate to the external matcher. -/
def fuzzySearch (idx : SearchIndexes) (query : JSStr) (limit : Nat) : List DexEntry :=
  if trimStr query = [] then [] else idx.fuse query limit

/-- `isPasteMode` of `search.ts`. -/
def isPasteMode (input : JSStr) : Bool :=
  input.length > 30 || input.any isSpaceChar

/-- Detection state: the `matchedDex` set and the `detected` output list. -/
abbrev DetState := List Nat × List DexEntry

/-- `detectFromMap` of `search.ts`. -/
def detectFromMap (m : JMap) (token : JSStr) (st : DetState) : DetState :=
  let key := normalize token
  if key = [] then st
  else
    match mapGet m key with
    | none => st
    | some e => if e.dex ∈ st.1 then st else (st.1 ++ [e.dex], st.2 ++ [e])

/-- Inner sliding loop of the Japanese pass: probe `jaMap` then `aliasMap`
with every window of `size` characters. -/
def slideJP (idx : SearchIndexes) (chars : JSStr) (size : Nat) (st : DetState) : DetState :=
  (List.range (chars.length - size + 1)).foldl
    (fun st i =>
      let slice := (chars.drop i).take size
      detectFromMap idx.aliasMap slice (detectFromMap idx.jaMap slice st))
    st

/-- The `for (let size = …; size >= 2; size -= 1)` loop of the Japanese
pass, counting down from the starting size. -/
def jpSizeLoop (idx : SearchIndexes) (chars : JSStr) : Nat → DetState → DetState
  | 0, st => st
  | 1, st => st
  | s + 2, st =>
    let st2 := if chars.length < s + 2 then st else slideJP idx chars (s + 2) st
    jpSizeLoop idx chars (s + 1) st2

/-- Inner sliding loop of the Latin pass: probe `enMap`, `roomajiMap`,
then `aliasMap` with every window of `size` characters. -/
def slideLatin (idx : SearchIndexes) (chars : JSStr) (size : Nat) (st : DetState) : DetState :=
  (List.range (chars.length - size + 1)).foldl
    (fun st i =>
      let slice := (chars.drop i).take size
      detectFromMap idx.aliasMap slice
        (detectFromMap idx.roomajiMap slice (detectFromMap idx.enMap slice st)))
    st

/-- The `for (let size = …; size >= 3; size -= 1)` loop of the Latin pass. -/
def latinSizeLoop (idx : SearchIndexes) (chars : JSStr) : Nat → DetState → DetState
  | 0, st => st
  | 1, st => st
  | 2, st => st
  | s + 3, st =>
    let st2 := if chars.length < s + 3 then st else slideLatin idx chars (s + 3) st
    latinSizeLoop idx chars (s + 2) st2

/-- `detectFromPastedText` of `search.ts`. -/
def detectFromPastedText (idx : SearchIndexes) (text : JSStr) : List DexEntry :=
  let st0 : DetState := ([], [])
  let tokens := splitRuns isTokenChar text
  let st1 := tokens.foldl
    (fun st token =>
      detectFromMap idx.aliasMap token
        (detectFromMap idx.roomajiMap token
          (detectFromMap idx.jaMap token (detectFromMap idx.enMap token st))))
    st0
  let jpRuns := splitRuns isJPChar text
  let st2 := jpRuns.foldl (fun st run => jpSizeLoop idx (normalize run) 6 st) st1
  let latinRuns := splitRuns isAsciiLetter text
  let st3 := latinRuns.foldl (fun st run => latinSizeLoop idx (normalize run) 12 st) st2
  List.insertionSort dexRel st3.2

/-- `evolutionForEntry` of `App.tsx`. -/
def evolutionForEntry (e : DexEntry) : List Nat :=
  match e.evolution with
  | some l => if l = [] then [e.dex] else l
  | none => [e.dex]

/-- A number-keyed JavaScript `Map` (the `entryByDex` memo of `App.tsx`). -/
abbrev NMap := List (Nat × DexEntry)

/-- `Map.prototype.get` for the number-keyed map. -/
def nmapGet : NMap → Nat → Option DexEntry
  | [], _ => none
  | (k2, v) :: rest, k => if k = k2 then some v else nmapGet rest k

/-- `new Map(entries.map((entry) => [entry.dex, entry]))` of `App.tsx`. -/
def buildEntryByDex (entries : List DexEntry) : NMap :=
  entries.foldl (fun m e => (e.dex, e) :: m) []

/-- The `push` closure of `withEvolutionChainResults`. -/
def evoPush (limit : Nat) (st : List Nat × List DexEntry) (e : Option DexEntry) :
    List Nat × List DexEntry :=
  match e with
  | none => st
  | some e =>
    if e.dex ∈ st.1 ∨ limit ≤ st.2.length then st
    else (st.1 ++ [e.dex], st.2 ++ [e])

/-- The `for (const entry of seed)` loop of `withEvolutionChainResults`. -/
def evoLoop (entryByDex : NMap) (limit : Nat) :
    List DexEntry → List Nat × List DexEntry → List Nat × List DexEntry
  | [], st => st
  | e :: rest, st =>
    if limit ≤ st.2.length then st
    else
      let st1 := evoPush limit st (some e)
      let st2 := (evolutionForEntry e).foldl
        (fun st d => evoPush limit st (nmapGet entryByDex d)) st1
      evoLoop entryByDex limit rest st2

/-- `withEvolutionChainResults` of `App.tsx`. -/
def withEvolutionChainResults (seed : List DexEntry) (query : JSStr)
    (entryByDex : NMap) (limit : Nat) : List DexEntry :=
  if trimStr query = [] then seed.take limit
  else (evoLoop entryByDex limit seed ([], [])).2

/-- The fuzzy-merge loop of the `results` memo of `App.tsx`. -/
def mergeLoop (limit : Nat) : List DexEntry → List Nat → List DexEntry → List DexEntry
  | [], _, merged => merged
  | item :: rest, seen, merged =>
    if limit ≤ merged.length then merged
    else if item.dex ∈ seen then mergeLoop limit rest seen merged
    else mergeLoop limit rest (seen ++ [item.dex]) (merged ++ [item])

/-- The `results` memo of `App.tsx` (`MAX_RESULTS = 20`). -/
def appResults (idx : SearchIndexes) (entryByDex : NMap) (query : JSStr)
    (fuzzyEnabled : Bool) : List DexEntry :=
  let direct := fastSearch idx query 20
  if 5 ≤ direct.length ∧ fuzzyEnabled = false then direct
  else
    let fuzzy := fuzzySearch idx query 20
    let merged := mergeLoop 20 fuzzy (direct.map (·.dex)) direct
    withEvolutionChainResults merged query entryByDex 20

/-- `fastSearch` with the index state explicitly threaded: the source
function only reads `indexes`, so the state comes back unchanged. -/
def fastSearchS (idx : SearchIndexes) (query : JSStr) (limit : Nat) :
    List DexEntry × SearchIndexes :=
  (fastSearch idx query limit, idx)

/-- `fuzzySearch` with the index state explicitly threaded. -/
def fuzzySearchS (idx : SearchIndexes) (query : JSStr) (limit : Nat) :
    List DexEntry × SearchIndexes :=
  (fuzzySearch idx query limit, idx)

/-- `detectFromPastedText` with the index state explicitly threaded. -/
def detectS (idx : SearchIndexes) (text : JSStr) :
    List DexEntry × SearchIndexes :=
  (detectFromPastedText idx text, idx)

/-- `isPasteMode` with the index state explicitly threaded (the source
function does not even read the indexes). -/
def isPasteModeS (idx : SearchIndexes) (input : JSStr) :
    Bool × SearchIndexes :=
  (isPasteMode input, idx)

/-- C9: `is_paste_mode(input)` is true iff the input is longer than 30
characters or contains a whitespace character; a 30-character
whitespace-free input is not paste mode, a 31-character whitespace-free
input is, and a 5-character input with one space is. -/
theorem isPasteMode_iff_long_or_whitespace :
    (∀ input : JSStr,
      isPasteMode input = true ↔ (30 < input.length ∨ ∃ c ∈ input, isSpaceChar c = true)) ∧
    isPasteMode (List.replicate 30 0x61) = false ∧
    isPasteMode (List.replicate 31 0x61) = true ∧
    isPasteMode (str "ab cd") = true := by
  refine ⟨fun input => ?_, by decide, by decide, by decide⟩
  simp [isPasteMode, List.any_eq_true]

/-- C8: the search operations leave the `Indexes` value unchanged: with
the state explicitly threaded, each call returns the prepared list, the
four exact-match maps and the fuzzy-matcher handle exactly as given. -/
theorem search_ops_preserve_indexes :
    ∀ (idx : SearchIndexes) (query text input : JSStr) (limit : Nat),
      (fastSearchS idx query limit).2 = idx ∧
      (fuzzySearchS idx query limit).2 = idx ∧
      (detectS idx text).2 = idx ∧
      (isPasteModeS idx input).2 = idx := by
  intro idx query text input limit
  exact ⟨rfl, rfl, rfl, rfl⟩

theorem mapGet_insertKeys (m : JMap) (keys : List JSStr) (e : DexEntry) (k : JSStr) :
    mapGet (insertKeys m keys e) k = if k ∈ keys then some e else mapGet m k := by
  induction keys generalizing m with
  | nil => simp [insertKeys]
  | cons k1 rest ih =>
    show mapGet (insertKeys (mapSet m k1 e) rest e) k = _
    rw [ih]
    by_cases h1 : k ∈ rest
    · simp [h1]
    · by_cases h2 : k = k1 <;> simp [h1, h2, mapSet, mapGet]

theorem mapGet_buildMap (fieldKeys : DexEntry → List JSStr) (entries : List DexEntry)
    (k : JSStr) :
    mapGet (buildMap fieldKeys entries) k =
      (entries.filter (fun e => decide (k ∈ fieldKeys e))).getLast? := by
  induction entries using List.reverseRecOn with
  | nil => simp [buildMap, mapGet]
  | append_singleton es e ih =>
    have hstep : buildMap fieldKeys (es ++ [e]) =
        insertKeys (buildMap fieldKeys es) (fieldKeys e) e := by
      simp [buildMap, List.foldl_append, insertKeys]
    rw [hstep, mapGet_insertKeys, List.filter_append]
    by_cases h : k ∈ fieldKeys e
    · simp [h, List.getLast?_concat]
    · simp [h, ih]

/-- C6: in `createIndexes`, every normalized variant of the relevant field
of every entity is a key of the corresponding exact-match map, and on key
collision last write wins: each of the four maps sends a key to the entity
occurring latest in the input list among the entities contributing that
key (so an earlier entity sharing a variant with a later one is
unreachable by it). -/
theorem createIndexes_last_write_wins :
    ∀ (fuseBuild : List DexEntry → JSStr → Nat → List DexEntry)
      (entries : List DexEntry) (k : JSStr),
      mapGet (createIndexes fuseBuild entries).enMap k =
        (entries.filter (fun e => decide (k ∈ enKeys e))).getLast? ∧
      mapGet (createIndexes fuseBuild entries).jaMap k =
        (entries.filter (fun e => decide (k ∈ jaKeys e))).getLast? ∧
      mapGet (createIndexes fuseBuild entries).roomajiMap k =
        (entries.filter (fun e => decide (k ∈ roomajiKeys e))).getLast? ∧
      mapGet (createIndexes fuseBuild entries).aliasMap k =
        (entries.filter (fun e => decide (k ∈ aliasKeys e))).getLast? := by
  intro fuseBuild entries k
  exact ⟨mapGet_buildMap enKeys entries k, mapGet_buildMap jaKeys entries k,
    mapGet_buildMap roomajiKeys entries k, mapGet_buildMap aliasKeys entries k⟩

/-- A two-entry fixture: an entity whose primary name and sole alias
coincide, next to an unrelated entity carrying an evolution chain back to
both. -/
def entryDupAlias : DexEntry :=
  { dex := 1, en := str "ab", ja := [], aliases := some [str "ab"],
    evolution := some [1, 2] }

/-- Second fixture entity, unrelated to any query used below. -/
def entryOther : DexEntry :=
  { dex := 2, en := str "qz", ja := [] }

/-- A trivial external fuzzy matcher that never returns hits. -/
def noFuse : List DexEntry → JSStr → Nat → List DexEntry :=
  fun _ _ _ => []

/-- C5 counterexample: the value collection of a PreparedEntity is not
deduplicated — an entity whose primary name equals one of its aliases gets
every shared normalized variant twice. -/
theorem prepared_values_not_nodup :
    ¬ ∀ p ∈ (createIndexes noFuse [entryDupAlias]).prepared, p.values.Nodup := by
  intro h
  exact absurd (h ⟨entryDupAlias, entryValues entryDupAlias⟩ (by simp [createIndexes]))
    (by decide)

theorem normalizedVariants_nil : normalizedVariants ([] : JSStr) = [] := by
  decide

/-- C5 amended: the PreparedEntity value collection is the concatenation
of the per-field `normalized_variants` lists (so it can repeat a variant
shared between fields); as a set it equals the union of
`normalized_variants` over the primary name, secondary name,
transliteration (when present) and each alias. -/
theorem prepared_values_union :
    ∀ (fuseBuild : List DexEntry → JSStr → Nat → List DexEntry)
      (entries : List DexEntry) (e : DexEntry),
      (createIndexes fuseBuild entries).prepared =
        entries.map (fun e => ⟨e, entryValues e⟩) ∧
      (∀ v : JSStr,
        v ∈ entryValues e ↔
          (v ∈ normalizedVariants e.en ∨ v ∈ normalizedVariants e.ja ∨
            (∃ r, e.roomaji = some r ∧ v ∈ normalizedVariants r) ∨
            ∃ a ∈ e.aliases.getD [], v ∈ normalizedVariants a)) := by
  intro fuseBuild entries e
  refine ⟨rfl, fun v => ?_⟩
  have hro : (∃ r, e.roomaji = some r ∧ v ∈ normalizedVariants r) ↔
      v ∈ normalizedVariants (e.roomaji.getD []) := by
    cases e.roomaji with
    | none => simp [normalizedVariants_nil]
    | some r => simp
  rw [hro]
  simp only [entryValues, List.mem_flatMap, List.mem_append, List.mem_cons,
    List.not_mem_nil, or_false]
  constructor
  · rintro ⟨a, ha, hv⟩
    rcases ha with (rfl | rfl | rfl) | ha
    · exact Or.inl hv
    · exact Or.inr (Or.inl hv)
    · exact Or.inr (Or.inr (Or.inl hv))
    · exact Or.inr (Or.inr (Or.inr ⟨a, ha, hv⟩))
  · rintro (h | h | h | ⟨a, ha, hv⟩)
    · exact ⟨e.en, Or.inl (Or.inl rfl), h⟩
    · exact ⟨e.ja, Or.inl (Or.inr (Or.inl rfl)), h⟩
    · exact ⟨e.roomaji.getD [], Or.inl (Or.inr (Or.inr rfl)), h⟩
    · exact ⟨a, Or.inr ha, hv⟩

theorem prepared_map_entry (fuseBuild : List DexEntry → JSStr → Nat → List DexEntry)
    (entries : List DexEntry) :
    (createIndexes fuseBuild entries).prepared.map (·.entry) = entries := by
  simp only [createIndexes, List.map_map]
  exact (List.map_congr_left fun a _ => rfl).trans (List.map_id entries)

theorem ranked_entries_sublist (l : List PreparedEntry) (g : PreparedEntry → Option Nat) :
    ((l.filterMap (fun p => (g p).map (fun r => Ranked.mk p.entry r))).map (·.entry)).Sublist
      (l.map (·.entry)) := by
  induction l with
  | nil => simp
  | cons p rest ih =>
    cases h : g p with
    | none =>
      simp only [List.filterMap_cons, h, Option.map_none, List.map_cons]
      exact ih.cons _
    | some r =>
      simp only [List.filterMap_cons, h, Option.map_some, List.map_cons]
      exact ih.cons₂ _

/-- C10: for a catalog of pairwise-distinct entities, `fastSearch` never
returns the same entity twice — each PreparedEntity contributes at most
one ranked element, and sorting/truncation preserve distinctness. -/
theorem fastSearch_nodup :
    ∀ (fuseBuild : List DexEntry → JSStr → Nat → List DexEntry)
      (entries : List DexEntry) (query : JSStr) (limit : Nat),
      entries.Nodup → (fastSearch (createIndexes fuseBuild entries) query limit).Nodup := by
  intro fuseBuild entries query limit hnd
  have hprep := prepared_map_entry fuseBuild entries
  unfold fastSearch
  dsimp only
  split
  · rw [hprep]
    exact ((List.take_sublist _ _).nodup
      ((List.perm_insertionSort dexRel entries).symm.nodup hnd))
  · split
    · simp
    · have hsub := ranked_entries_sublist (createIndexes fuseBuild entries).prepared
        (fun p => bestRankLoop p.values (normalizedVariants (trimStr query)) none)
      rw [hprep] at hsub
      have hranked : (((createIndexes fuseBuild entries).prepared.filterMap
          (fun p => (bestRankLoop p.values (normalizedVariants (trimStr query)) none).map
            (fun r => Ranked.mk p.entry r))).map (·.entry)).Nodup := hsub.nodup hnd
      have hperm := (List.perm_insertionSort rankedRel
        ((createIndexes fuseBuild entries).prepared.filterMap
          (fun p => (bestRankLoop p.values (normalizedVariants (trimStr query)) none).map
            (fun r => Ranked.mk p.entry r))))
      have hsort : ((List.insertionSort rankedRel
          ((createIndexes fuseBuild entries).prepared.filterMap
            (fun p => (bestRankLoop p.values (normalizedVariants (trimStr query)) none).map
              (fun r => Ranked.mk p.entry r)))).map (·.entry)).Nodup :=
        ((hperm.map (·.entry)).symm.nodup hranked)
      rw [List.map_take]
      exact (List.take_sublist _ _).nodup hsort

/-- C10 witness: a concrete two-entity catalog with distinct entries
yields a duplicate-free search result. -/
theorem fastSearch_nodup_witness :
    ([entryDupAlias, entryOther] : List DexEntry).Nodup ∧
      (fastSearch (createIndexes noFuse [entryDupAlias, entryOther]) (str "ab") 20).Nodup :=
  ⟨by decide, fastSearch_nodup noFuse [entryDupAlias, entryOther] (str "ab") 20 (by decide)⟩

/-- Minimum of two optional ranks (`none` = no match). -/
def omin : Option Nat → Option Nat → Option Nat
  | none, b => b
  | some r, none => some r
  | some r, some b => some (min r b)

/-- Minimum of a list of ranks. -/
def listMin : List Nat → Option Nat
  | [] => none
  | x :: rest => omin (some x) (listMin rest)

theorem omin_none_right (a : Option Nat) : omin a none = a := by
  cases a <;> rfl

theorem omin_comm (a b : Option Nat) : omin a b = omin b a := by
  cases a <;> cases b <;> simp [omin, Nat.min_comm]

theorem omin_assoc (a b c : Option Nat) : omin (omin a b) c = omin a (omin b c) := by
  cases a <;> cases b <;> cases c <;> simp [omin, Nat.min_assoc]

theorem omin_left_comm (a b c : Option Nat) : omin a (omin b c) = omin b (omin a c) := by
  rw [← omin_assoc, omin_comm a b, omin_assoc]

theorem listMin_append (l1 l2 : List Nat) :
    listMin (l1 ++ l2) = omin (listMin l1) (listMin l2) := by
  induction l1 with
  | nil => rfl
  | cons x rest ih =>
    show omin (some x) (listMin (rest ++ l2)) =
      omin (omin (some x) (listMin rest)) (listMin l2)
    rw [ih, omin_assoc]

theorem listMin_mem {l : List Nat} {m : Nat} (h : listMin l = some m) : m ∈ l := by
  induction l generalizing m with
  | nil => simp [listMin] at h
  | cons x rest ih =>
    simp only [listMin] at h
    cases hr : listMin rest with
    | none => rw [hr, omin_none_right] at h; simp at h; simp [h]
    | some b =>
      rw [hr] at h
      simp only [omin, Option.some.injEq] at h
      rcases Nat.le_total x b with hle | hle
      · rw [Nat.min_eq_left hle] at h; simp [h]
      · rw [Nat.min_eq_right hle] at h
        exact List.mem_cons_of_mem x (ih (h ▸ hr))

theorem omin_one {l : List Nat} (h : ∀ x ∈ l, 1 ≤ x) :
    omin (listMin l) (some 1) = some 1 := by
  cases hm : listMin l with
  | none => rfl
  | some m => simp [omin, Nat.min_eq_right (h m (listMin_mem hm))]

theorem rankValue_pos {q v : JSStr} {r : Nat} (h : rankValue q v = some r) : 1 ≤ r := by
  unfold rankValue at h
  split_ifs at h <;> simp_all <;> omega

theorem combine_eq_omin (best : Option Nat) (r : Nat) :
    (match best with
      | none => some r
      | some b => if r < b then some r else some b) = omin (some r) best := by
  cases best with
  | none => rfl
  | some b =>
    simp only [omin]
    rcases Nat.lt_or_ge r b with h | h
    · rw [if_pos h, Nat.min_eq_left h.le]
    · rw [if_neg (Nat.not_lt.mpr h), Nat.min_eq_right h]

theorem filterMap_rank_pos (q : JSStr) (vs : List JSStr) :
    ∀ x ∈ vs.filterMap (fun v => rankValue q v), 1 ≤ x := by
  intro x hx
  rw [List.mem_filterMap] at hx
  obtain ⟨v, _, hv⟩ := hx
  exact rankValue_pos hv

theorem innerRankLoop_spec (q : JSStr) (vs : List JSStr) (best : Option Nat) :
    innerRankLoop q vs best = omin (listMin (vs.filterMap (fun v => rankValue q v))) best := by
  induction vs generalizing best with
  | nil => rfl
  | cons v rest ih =>
    rw [innerRankLoop]
    cases h : rankValue q v with
    | none => simp only [List.filterMap_cons, h]; exact ih best
    | some r =>
      simp only [List.filterMap_cons, h, combine_eq_omin]
      have hcons : listMin (r :: rest.filterMap (fun v => rankValue q v)) =
          omin (some r) (listMin (rest.filterMap (fun v => rankValue q v))) := rfl
      have hstep : omin (omin (some r) (listMin (rest.filterMap (fun v => rankValue q v)))) best =
          omin (listMin (rest.filterMap (fun v => rankValue q v))) (omin (some r) best) := by
        rw [omin_comm (some r) (listMin (rest.filterMap (fun v => rankValue q v))), omin_assoc]
      rw [hcons, hstep]
      by_cases h1 : omin (some r) best = some 1
      · rw [if_pos h1, h1, omin_one (filterMap_rank_pos q rest)]
      · rw [if_neg h1, ih (omin (some r) best)]

theorem bestRankLoop_spec (values : List JSStr) (qs : List JSStr) (best : Option Nat) :
    bestRankLoop values qs best =
      omin (listMin (qs.flatMap (fun q => values.filterMap (fun v => rankValue q v)))) best := by
  induction qs generalizing best with
  | nil => rfl
  | cons q rest ih =>
    rw [bestRankLoop, innerRankLoop_spec]
    have hflat : ∀ x ∈ rest.flatMap (fun q => values.filterMap (fun v => rankValue q v)), 1 ≤ x := by
      intro x hx
      rw [List.mem_flatMap] at hx
      obtain ⟨q2, _, hq2⟩ := hx
      exact filterMap_rank_pos q2 values x hq2
    have hsplit : listMin ((q :: rest).flatMap (fun q => values.filterMap (fun v => rankValue q v))) =
        omin (listMin (values.filterMap (fun v => rankValue q v)))
          (listMin (rest.flatMap (fun q => values.filterMap (fun v => rankValue q v)))) := by
      rw [List.flatMap_cons, listMin_append]
    have hstep : omin (omin (listMin (values.filterMap (fun v => rankValue q v)))
        (listMin (rest.flatMap (fun q => values.filterMap (fun v => rankValue q v))))) best =
        omin (listMin (rest.flatMap (fun q => values.filterMap (fun v => rankValue q v))))
          (omin (listMin (values.filterMap (fun v => rankValue q v))) best) := by
      rw [omin_comm (listMin (values.filterMap (fun v => rankValue q v)))
        (listMin (rest.flatMap (fun q => values.filterMap (fun v => rankValue q v)))), omin_assoc]
    rw [hsplit, hstep]
    by_cases h1 : omin (listMin (values.filterMap (fun v => rankValue q v))) best = some 1
    · rw [if_pos h1, h1, omin_one hflat]
    · rw [if_neg h1, ih]

/-- The best rank of an entity value set against the query variants, as the
spec words it: the minimum rank over all (query-variant, entity-value)
pairs, `none` when no pair matches. -/
def bestRankSpec (queries values : List JSStr) : Option Nat :=
  listMin (queries.flatMap (fun q => values.filterMap (fun v => rankValue q v)))

theorem bestRank_eq_spec (values queries : List JSStr) :
    bestRankLoop values queries none = bestRankSpec queries values := by
  rw [bestRankLoop_spec, omin_none_right, bestRankSpec]

/-- `fast_search` as §4.3 of the spec words it: empty/whitespace-only
queries return the whole catalog sorted ascending by id and truncated;
otherwise each entity is scored with its best (minimum) rank over all
(query-variant, entity-value) pairs, unmatched entities are dropped, and
the matches are sorted by rank then id (stably) and truncated to `limit`. -/
def fastSearchSpec (entries : List DexEntry) (query : JSStr) (limit : Nat) : List DexEntry :=
  if trimStr query = [] then (List.insertionSort dexRel entries).take limit
  else
    let queries := normalizedVariants (trimStr query)
    let ranked := entries.filterMap (fun e =>
      (bestRankSpec queries (entryValues e)).map (fun r => Ranked.mk e r))
    ((List.insertionSort rankedRel ranked).take limit).map (·.entry)

/-- C1: `fast_search` implements the specified ranked search — empty or
whitespace-only queries return all entities sorted ascending by id and
truncated to `limit`; otherwise entities are ranked by their best
(1 = equal, 2 = starts-with, 3 = contains) rank over all
(query-variant, entity-value) pairs, unmatched entities are excluded,
matches are sorted by rank then id and truncated — and the result length
never exceeds `limit`. -/
theorem fastSearch_eq_spec :
    ∀ (fuseBuild : List DexEntry → JSStr → Nat → List DexEntry)
      (entries : List DexEntry) (query : JSStr) (limit : Nat),
      fastSearch (createIndexes fuseBuild entries) query limit =
        fastSearchSpec entries query limit ∧
      (fastSearch (createIndexes fuseBuild entries) query limit).length ≤ limit := by
  intro fuseBuild entries query limit
  have hprep := prepared_map_entry fuseBuild entries
  have hmain : fastSearch (createIndexes fuseBuild entries) query limit =
      fastSearchSpec entries query limit := by
    unfold fastSearch fastSearchSpec
    dsimp only
    by_cases ht : trimStr query = []
    · rw [if_pos ht, if_pos ht, hprep]
    · rw [if_neg ht, if_neg ht]
      have hfm : (createIndexes fuseBuild entries).prepared.filterMap
          (fun p => (bestRankLoop p.values (normalizedVariants (trimStr query)) none).map
            (fun r => Ranked.mk p.entry r)) =
          entries.filterMap (fun e =>
            (bestRankSpec (normalizedVariants (trimStr query)) (entryValues e)).map
              (fun r => Ranked.mk e r)) := by
        simp only [createIndexes]
        rw [List.filterMap_map]
        exact List.filterMap_congr (fun e _ => by
          simp only [Function.comp, bestRank_eq_spec])
      by_cases hq : normalizedVariants (trimStr query) = []
      · rw [if_pos hq]
        have hnil : ∀ e ∈ entries,
            (bestRankSpec (normalizedVariants (trimStr query)) (entryValues e)).map
              (fun r => Ranked.mk e r) = none := by
          intro e _
          rw [hq]
          rfl
        rw [List.filterMap_eq_nil_iff.mpr hnil]
        simp
      · rw [if_neg hq, hfm]
  refine ⟨hmain, ?_⟩
  rw [hmain]
  unfold fastSearchSpec
  dsimp only
  by_cases ht : trimStr query = []
  · rw [if_pos ht]
    exact (List.length_take_le _ _)
  · rw [if_neg ht]
    rw [List.length_map]
    exact (List.length_take_le _ _)

/-- The merge policy as §4.4 of the spec words it: direct results first in
their order, then fuzzy results in matcher order, skipping ids already
present, stopping once the combined list reaches `limit`. -/
def mergeSpec (direct fuzzy : List DexEntry) (limit : Nat) : List DexEntry :=
  fuzzy.foldl
    (fun acc item =>
      if limit ≤ acc.length ∨ item.dex ∈ acc.map (·.dex) then acc else acc ++ [item])
    direct

theorem mergeSpec_stable (limit : Nat) (l : List DexEntry) (acc : List DexEntry)
    (h : limit ≤ acc.length) :
    l.foldl
      (fun acc item =>
        if limit ≤ acc.length ∨ item.dex ∈ acc.map (·.dex) then acc else acc ++ [item])
      acc = acc := by
  induction l with
  | nil => rfl
  | cons item rest ih =>
    simp only [List.foldl_cons, if_pos (Or.inl h)]
    exact ih

theorem mergeLoop_eq_mergeSpec (limit : Nat) (fuzzy : List DexEntry) :
    ∀ acc : List DexEntry,
      mergeLoop limit fuzzy (acc.map (·.dex)) acc = mergeSpec acc fuzzy limit := by
  induction fuzzy with
  | nil => intro acc; rfl
  | cons item rest ih =>
    intro acc
    rw [mergeLoop, mergeSpec, List.foldl_cons]
    by_cases h1 : limit ≤ acc.length
    · rw [if_pos h1, if_pos (Or.inl h1), mergeSpec_stable limit rest acc h1]
    · rw [if_neg h1]
      by_cases h2 : item.dex ∈ acc.map (·.dex)
      · rw [if_pos h2, if_pos (Or.inr h2)]
        exact ih acc
      · rw [if_neg h2, if_neg (by tauto)]
        have hmap : acc.map (·.dex) ++ [item.dex] = (acc ++ [item]).map (·.dex) := by
          simp
        rw [hmap]
        exact ih (acc ++ [item])

/-- The displayed result as the claim describes it: the direct/fuzzy merge
with threshold 5 and limit 20, with no further processing. -/
def mergePolicyResult (idx : SearchIndexes) (query : JSStr) (fuzzyEnabled : Bool) :
    List DexEntry :=
  let direct := fastSearch idx query 20
  if 5 ≤ direct.length ∧ fuzzyEnabled = false then direct
  else mergeSpec direct (fuzzySearch idx query 20) 20

/-- C2 counterexample: with a catalog whose first entity carries an
evolution chain, a query with fewer than 5 direct matches makes the
displayed result differ from the direct/fuzzy merge — `App.tsx` expands
the merged list with evolution-chain members before display. -/
theorem appResults_ne_merge_policy :
    appResults (createIndexes noFuse [entryDupAlias, entryOther])
        (buildEntryByDex [entryDupAlias, entryOther]) (str "ab") false ≠
      mergePolicyResult (createIndexes noFuse [entryDupAlias, entryOther]) (str "ab") false := by
  decide

/-- C2 amended: the caller invokes `fast_search` first and returns its
result unchanged when it has at least 5 entries and fuzzy is not
explicitly enabled; otherwise it merges direct results first, then fuzzy
results in matcher order skipping ids already present up to the limit 20,
and the merged list is then expanded with evolution-chain members
(each seed entry followed by its chain members, deduplicated by id,
capped at 20) before display.  In particular, with at least 5 direct
matches and fuzzy not requested, the displayed result equals the direct
result exactly. -/
theorem appResults_merge_with_evolution :
    ∀ (idx : SearchIndexes) (entryByDex : NMap) (query : JSStr) (fuzzyEnabled : Bool),
      (appResults idx entryByDex query fuzzyEnabled =
        if 5 ≤ (fastSearch idx query 20).length ∧ fuzzyEnabled = false
        then fastSearch idx query 20
        else withEvolutionChainResults
          (mergeSpec (fastSearch idx query 20) (fuzzySearch idx query 20) 20)
          query entryByDex 20) ∧
      (5 ≤ (fastSearch idx query 20).length → fuzzyEnabled = false →
        appResults idx entryByDex query fuzzyEnabled = fastSearch idx query 20) := by
  intro idx entryByDex query fuzzyEnabled
  have hmain : appResults idx entryByDex query fuzzyEnabled =
      if 5 ≤ (fastSearch idx query 20).length ∧ fuzzyEnabled = false
      then fastSearch idx query 20
      else withEvolutionChainResults
        (mergeSpec (fastSearch idx query 20) (fuzzySearch idx query 20) 20)
        query entryByDex 20 := by
    unfold appResults
    dsimp only
    by_cases h : 5 ≤ (fastSearch idx query 20).length ∧ fuzzyEnabled = false
    · rw [if_pos h, if_pos h]
    · rw [if_neg h, if_neg h, mergeLoop_eq_mergeSpec]
  refine ⟨hmain, fun h5 hf => ?_⟩
  rw [hmain, if_pos ⟨h5, hf⟩]

/-- Fixture catalog with five direct matches for the query "a". -/
def wideEntries : List DexEntry :=
  [{ dex := 1, en := str "a", ja := [] },
   { dex := 2, en := str "ab", ja := [] },
   { dex := 3, en := str "ac", ja := [] },
   { dex := 4, en := str "ad", ja := [] },
   { dex := 5, en := str "ae", ja := [] }]

/-- C2 witness: on a catalog with 5 direct matches and fuzzy off, the
displayed result is exactly the direct result. -/
theorem appResults_merge_with_evolution_witness :
    5 ≤ (fastSearch (createIndexes noFuse wideEntries) (str "a") 20).length ∧
      appResults (createIndexes noFuse wideEntries) (buildEntryByDex wideEntries)
          (str "a") false =
        fastSearch (createIndexes noFuse wideEntries) (str "a") 20 :=
  ⟨by decide,
    (appResults_merge_with_evolution (createIndexes noFuse wideEntries)
      (buildEntryByDex wideEntries) (str "a") false).2 (by decide) rfl⟩

theorem alnum_nfkc {c : Nat} (h : isAsciiAlnum c = true) : nfkcChar c = c := by
  simp only [isAsciiAlnum, Bool.or_eq_true, Bool.and_eq_true, decide_eq_true_eq] at h
  unfold nfkcChar
  rw [if_neg]
  omega

theorem alnum_lower_isLower {c : Nat} (h : isAsciiAlnum c = true) :
    isLowerAlnum (lowerChar c) = true := by
  simp only [isAsciiAlnum, Bool.or_eq_true, Bool.and_eq_true, decide_eq_true_eq] at h
  simp only [lowerChar, isLowerAlnum, Bool.or_eq_true, Bool.and_eq_true, decide_eq_true_eq]
  split_ifs <;> omega

theorem lower_not_space {c : Nat} (h : isLowerAlnum c = true) : isSpaceChar c = false := by
  simp only [isLowerAlnum, Bool.or_eq_true, Bool.and_eq_true, decide_eq_true_eq] at h
  simp only [isSpaceChar, Bool.or_eq_false_iff, Bool.and_eq_false_iff,
    decide_eq_false_iff_not]
  omega

theorem lower_not_punct {c : Nat} (h : isLowerAlnum c = true) : isPunctSymChar c = false := by
  simp only [isLowerAlnum, Bool.or_eq_true, Bool.and_eq_true, decide_eq_true_eq] at h
  simp only [isPunctSymChar, Bool.or_eq_false_iff, Bool.and_eq_false_iff,
    decide_eq_false_iff_not]
  omega

theorem lower_tohira {c : Nat} (h : isLowerAlnum c = true) : toHiraganaChar c = c := by
  simp only [isLowerAlnum, Bool.or_eq_true, Bool.and_eq_true, decide_eq_true_eq] at h
  unfold toHiraganaChar
  rw [if_neg]
  omega

theorem lower_smallfold {c : Nat} (h : isLowerAlnum c = true) : smallKanaFold c = c := by
  simp only [isLowerAlnum, Bool.or_eq_true, Bool.and_eq_true, decide_eq_true_eq] at h
  unfold smallKanaFold
  split_ifs <;> omega

theorem lower_alnum {c : Nat} (h : isLowerAlnum c = true) : isAsciiAlnum c = true := by
  simp only [isLowerAlnum, Bool.or_eq_true, Bool.and_eq_true, decide_eq_true_eq] at h
  simp only [isAsciiAlnum, Bool.or_eq_true, Bool.and_eq_true, decide_eq_true_eq]
  omega

theorem dropWhile_eq_self_of (p : Nat → Bool) (l : JSStr) (h : ∀ c ∈ l, p c = false) :
    l.dropWhile p = l := by
  cases l with
  | nil => rfl
  | cons c rest => simp [List.dropWhile_cons, h c (by simp)]

theorem trimStr_eq_self {l : JSStr} (h : ∀ c ∈ l, isSpaceChar c = false) : trimStr l = l := by
  unfold trimStr
  rw [dropWhile_eq_self_of _ _ h,
    dropWhile_eq_self_of _ _ (fun c hc => h c (List.mem_reverse.mp hc)), List.reverse_reverse]

theorem kana_eq_self {l : JSStr} (h : ∀ c ∈ l, isLowerAlnum c = true) :
    normalizeKanaText l = l := by
  unfold normalizeKanaText
  rw [List.map_congr_left (fun c hc => lower_tohira (h c hc)), List.map_id']
  induction l with
  | nil => rfl
  | cons c rest ih =>
    have hc := h c (by simp)
    have hne : c ≠ 0x30FC := by
      simp only [isLowerAlnum, Bool.or_eq_true, Bool.and_eq_true, decide_eq_true_eq] at hc
      omega
    rw [List.filterMap_cons]
    simp only [if_neg hne, lower_smallfold hc]
    rw [ih (fun d hd => h d (List.mem_cons_of_mem c hd))]

/-- C3: for input consisting solely of Latin letters and digits,
`normalize` returns exactly the NFKC-normalized, lowercased input with
non-alphanumeric characters removed, and the output again consists solely
of Latin letters and digits (the kana-folding stage leaves Latin content
untouched). -/
theorem normalize_latin_alnum :
    ∀ l : JSStr, (∀ c ∈ l, isAsciiAlnum c = true) →
      normalize l = ((l.map nfkcChar).map lowerChar).filter isAsciiAlnum ∧
      ∀ c ∈ normalize l, isAsciiAlnum c = true := by
  intro l hl
  have hm : ∀ c ∈ (l.map nfkcChar).map lowerChar, isLowerAlnum c = true := by
    intro c hc
    simp only [List.mem_map] at hc
    obtain ⟨a, ⟨b, hb, rfl⟩, rfl⟩ := hc
    rw [alnum_nfkc (hl b hb)]
    exact alnum_lower_isLower (hl b hb)
  have hnorm : normalize l = (l.map nfkcChar).map lowerChar := by
    unfold normalize
    rw [trimStr_eq_self (fun c hc => lower_not_space (hm c hc))]
    rw [List.filter_eq_self.mpr (fun c hc => by
      rw [lower_not_space (hm c hc), lower_not_punct (hm c hc)]
      rfl)]
    exact kana_eq_self hm
  constructor
  · rw [hnorm, List.filter_eq_self.mpr (fun c hc => lower_alnum (hm c hc))]
  · intro c hc
    rw [hnorm] at hc
    exact lower_alnum (hm c hc)

/-- C3 witness: a concrete alphanumeric input. -/
theorem normalize_latin_alnum_witness :
    (∀ c ∈ str "Pika9", isAsciiAlnum c = true) ∧
      (normalize (str "Pika9") =
        (((str "Pika9").map nfkcChar).map lowerChar).filter isAsciiAlnum ∧
       ∀ c ∈ normalize (str "Pika9"), isAsciiAlnum c = true) :=
  ⟨by decide, normalize_latin_alnum (str "Pika9") (by decide)⟩

/-- A code point left untouched by every stage of `normalize` and not
removed by any of them. -/
def NormFixed (c : Nat) : Prop :=
  nfkcChar c = c ∧ lowerChar c = c ∧ isSpaceChar c = false ∧ isPunctSymChar c = false ∧
  toHiraganaChar c = c ∧ c ≠ 0x30FC ∧ smallKanaFold c = c

theorem smallFold_cases (x : Nat) :
    smallKanaFold x = x ∨
      smallKanaFold x ∈ ([0x3042, 0x3044, 0x3046, 0x3048, 0x304A,
        0x3064, 0x3084, 0x3086, 0x3088, 0x308F] : List Nat) := by
  unfold smallKanaFold
  split_ifs <;> simp

theorem smallFold_target_props :
    ∀ x ∈ ([0x3042, 0x3044, 0x3046, 0x3048, 0x304A,
        0x3064, 0x3084, 0x3086, 0x3088, 0x308F] : List Nat),
      0x3041 ≤ x ∧ x ≤ 0x3096 ∧ smallKanaFold x = x := by
  decide

theorem hira_normFixed {c : Nat} (h1 : 0x3041 ≤ c) (h2 : c ≤ 0x3096)
    (h3 : smallKanaFold c = c) : NormFixed c := by
  refine ⟨?_, ?_, ?_, ?_, ?_, ?_, h3⟩
  · unfold nfkcChar; rw [if_neg]; omega
  · unfold lowerChar; rw [if_neg]; omega
  · simp only [isSpaceChar, Bool.or_eq_false_iff, Bool.and_eq_false_iff,
      decide_eq_false_iff_not]
    omega
  · simp only [isPunctSymChar, Bool.or_eq_false_iff, Bool.and_eq_false_iff,
      decide_eq_false_iff_not]
    omega
  · unfold toHiraganaChar; rw [if_neg]; omega
  · omega

theorem nfkc_not_fullwidth (x : Nat) : nfkcChar x < 0xFF01 ∨ 0xFF5E < nfkcChar x := by
  unfold nfkcChar
  split_ifs <;> omega

theorem lower_preserves_nonfw {x : Nat} (h : x < 0xFF01 ∨ 0xFF5E < x) :
    lowerChar x < 0xFF01 ∨ 0xFF5E < lowerChar x := by
  unfold lowerChar
  split_ifs <;> omega

theorem nfkc_of_nonfw {x : Nat} (h : x < 0xFF01 ∨ 0xFF5E < x) : nfkcChar x = x := by
  unfold nfkcChar
  rw [if_neg]
  omega

theorem lower_not_upper (x : Nat) : lowerChar x < 0x41 ∨ 0x5A < lowerChar x := by
  unfold lowerChar
  split_ifs <;> omega

theorem lower_of_not_upper {x : Nat} (h : x < 0x41 ∨ 0x5A < x) : lowerChar x = x := by
  unfold lowerChar
  rw [if_neg]
  omega

theorem lower_nfkc_image_fixed (b : Nat) :
    nfkcChar (lowerChar (nfkcChar b)) = lowerChar (nfkcChar b) ∧
      lowerChar (lowerChar (nfkcChar b)) = lowerChar (nfkcChar b) :=
  ⟨nfkc_of_nonfw (lower_preserves_nonfw (nfkc_not_fullwidth b)),
    lower_of_not_upper (lower_not_upper (nfkcChar b))⟩

theorem mem_trimStr {c : Nat} {l : JSStr} (h : c ∈ trimStr l) : c ∈ l := by
  unfold trimStr at h
  rw [List.mem_reverse] at h
  have h2 := (List.dropWhile_sublist isSpaceChar).mem h
  rw [List.mem_reverse] at h2
  exact (List.dropWhile_sublist isSpaceChar).mem h2

theorem mem_normalize_normFixed (l : JSStr) : ∀ c ∈ normalize l, NormFixed c := by
  intro c hc
  unfold normalize normalizeKanaText at hc
  rw [List.mem_filterMap] at hc
  obtain ⟨d, hd, hstep⟩ := hc
  have hne : d ≠ 0x30FC := by
    intro habs
    rw [if_pos habs] at hstep
    exact Option.noConfusion hstep
  rw [if_neg hne] at hstep
  have hc_eq : c = smallKanaFold d := (Option.some.injEq _ _ ▸ hstep).symm
  rw [List.mem_map] at hd
  obtain ⟨m, hm, hdm⟩ := hd
  have hmf := List.mem_filter.mp hm
  have hmem := hmf.1
  have hkeep := hmf.2
  have hkeep2 : isSpaceChar m = false ∧ isPunctSymChar m = false := by
    have h2 := hkeep
    simp only [Bool.not_eq_true'] at h2
    exact Bool.or_eq_false_iff.mp h2
  have hspace : isSpaceChar m = false := hkeep2.1
  have hpunct : isPunctSymChar m = false := hkeep2.2
  have hmimg : nfkcChar m = m ∧ lowerChar m = m := by
    have hmem2 := mem_trimStr hmem
    rw [List.mem_map] at hmem2
    obtain ⟨a, ha, rfl⟩ := hmem2
    rw [List.mem_map] at ha
    obtain ⟨b, hb, rfl⟩ := ha
    exact lower_nfkc_image_fixed b
  by_cases hkata : 0x30A1 ≤ m ∧ m ≤ 0x30F6
  · have hdh : d = m - 0x60 := by
      rw [← hdm]
      unfold toHiraganaChar
      rw [if_pos hkata]
    have hd1 : 0x3041 ≤ d := by omega
    have hd2 : d ≤ 0x3096 := by omega
    rcases smallFold_cases d with hcase | hcase
    · rw [hc_eq, hcase]
      exact hira_normFixed hd1 hd2 hcase
    · obtain ⟨t1, t2, t3⟩ := smallFold_target_props _ hcase
      rw [hc_eq]
      exact hira_normFixed t1 t2 t3
  · have hdh : d = m := by
      rw [← hdm]
      unfold toHiraganaChar
      rw [if_neg hkata]
    rcases smallFold_cases d with hcase | hcase
    · rw [hc_eq, hcase, hdh]
      refine ⟨hmimg.1, hmimg.2, hspace, hpunct, ?_, ?_, ?_⟩
      · unfold toHiraganaChar; rw [if_neg hkata]
      · rw [← hdh]; exact hne
      · rw [← hdh]; exact hcase
    · obtain ⟨t1, t2, t3⟩ := smallFold_target_props _ hcase
      rw [hc_eq]
      exact hira_normFixed t1 t2 t3

theorem normalizeKanaText_eq_self {l : JSStr}
    (h : ∀ c ∈ l, toHiraganaChar c = c ∧ c ≠ 0x30FC ∧ smallKanaFold c = c) :
    normalizeKanaText l = l := by
  unfold normalizeKanaText
  rw [List.map_congr_left (fun c hc => (h c hc).1), List.map_id']
  induction l with
  | nil => rfl
  | cons c rest ih =>
    obtain ⟨_, hne, hfold⟩ := h c (by simp)
    rw [List.filterMap_cons]
    simp only [if_neg hne, hfold]
    rw [ih (fun d hd => h d (List.mem_cons_of_mem c hd))]

theorem normalize_fixed {l : JSStr} (h : ∀ c ∈ l, NormFixed c) : normalize l = l := by
  unfold normalize
  rw [List.map_congr_left (fun c hc => (h c hc).1), List.map_id']
  rw [List.map_congr_left (fun c hc => (h c hc).2.1), List.map_id']
  rw [trimStr_eq_self (fun c hc => (h c hc).2.2.1)]
  rw [List.filter_eq_self.mpr (fun c hc => by
    rw [(h c hc).2.2.1, (h c hc).2.2.2.1]
    rfl)]
  exact normalizeKanaText_eq_self (fun c hc =>
    ⟨(h c hc).2.2.2.2.1, (h c hc).2.2.2.2.2.1, (h c hc).2.2.2.2.2.2⟩)

/-- C7: `normalize` is idempotent — every code point surviving the
pipeline is a fixed point of every stage, so a second application changes
nothing. -/
theorem normalize_idempotent : ∀ l : JSStr, normalize (normalize l) = normalize l :=
  fun l => normalize_fixed (mem_normalize_normFixed l)

/-- The secondary-script window pass as §4.5 words it: window sizes from
6 down to 2, longer first, probing the secondary-name and alias maps. -/
def detectSpecJP (idx : SearchIndexes) (chars : JSStr) (st : DetState) : DetState :=
  ([6, 5, 4, 3, 2] : List Nat).foldl
    (fun st size => if chars.length < size then st else slideJP idx chars size st) st

/-- The Latin window pass as §4.5 words it: window sizes from 12 down to
3, longer first, probing the primary-name, transliteration and alias maps. -/
def detectSpecLatin (idx : SearchIndexes) (chars : JSStr) (st : DetState) : DetState :=
  ([12, 11, 10, 9, 8, 7, 6, 5, 4, 3] : List Nat).foldl
    (fun st size => if chars.length < size then st else slideLatin idx chars size st) st

/-- `detect` as §4.5 of the spec words it: token pass over all four maps,
then the secondary-script pass, then the Latin pass, first-seen dedup by
id throughout, result sorted ascending by id. -/
def detectSpec (idx : SearchIndexes) (text : JSStr) : List DexEntry :=
  let st0 : DetState := ([], [])
  let st1 := (splitRuns isTokenChar text).foldl
    (fun st token =>
      detectFromMap idx.aliasMap token
        (detectFromMap idx.roomajiMap token
          (detectFromMap idx.jaMap token (detectFromMap idx.enMap token st))))
    st0
  let st2 := (splitRuns isJPChar text).foldl
    (fun st run => detectSpecJP idx (normalize run) st) st1
  let st3 := (splitRuns isAsciiLetter text).foldl
    (fun st run => detectSpecLatin idx (normalize run) st) st2
  List.insertionSort dexRel st3.2

theorem jpSizeLoop_six (idx : SearchIndexes) (chars : JSStr) (st : DetState) :
    jpSizeLoop idx chars 6 st = detectSpecJP idx chars st := rfl

theorem latinSizeLoop_twelve (idx : SearchIndexes) (chars : JSStr) (st : DetState) :
    latinSizeLoop idx chars 12 st = detectSpecLatin idx chars st := rfl

/-- The detection-state invariant: recorded entities have pairwise
distinct ids, and every recorded id is in the `matchedDex` set. -/
def DetInv (st : DetState) : Prop :=
  st.2.Pairwise (fun a b => a.dex ≠ b.dex) ∧ ∀ e ∈ st.2, e.dex ∈ st.1

theorem detInv_init : DetInv ([], []) :=
  ⟨List.Pairwise.nil, by simp⟩

theorem detectFromMap_inv (m : JMap) (token : JSStr) {st : DetState} (h : DetInv st) :
    DetInv (detectFromMap m token st) := by
  unfold detectFromMap
  by_cases hk : normalize token = []
  · rw [if_pos hk]; exact h
  · rw [if_neg hk]
    cases hg : mapGet m (normalize token) with
    | none => exact h
    | some e =>
      dsimp only
      by_cases hd : e.dex ∈ st.1
      · rw [if_pos hd]; exact h
      · rw [if_neg hd]
        refine ⟨?_, ?_⟩
        · rw [List.pairwise_append]
          exact ⟨h.1, List.pairwise_singleton _ _,
            fun a ha b hb => by
              rw [List.mem_singleton] at hb
              subst hb
              intro habs
              exact hd (habs ▸ h.2 a ha)⟩
        · intro e2 he2
          rw [List.mem_append] at he2
          rcases he2 with he2 | he2
          · exact List.mem_append_left _ (h.2 e2 he2)
          · rw [List.mem_singleton] at he2
            subst he2
            simp

theorem foldl_detInv {α : Type} (f : DetState → α → DetState)
    (hf : ∀ (st : DetState) (a : α), DetInv st → DetInv (f st a)) :
    ∀ (l : List α) (st : DetState), DetInv st → DetInv (l.foldl f st) := by
  intro l
  induction l with
  | nil => intro st h; exact h
  | cons a rest ih => intro st h; exact ih (f st a) (hf st a h)

theorem slideJP_inv (idx : SearchIndexes) (chars : JSStr) (size : Nat) {st : DetState}
    (h : DetInv st) : DetInv (slideJP idx chars size st) := by
  unfold slideJP
  exact foldl_detInv _
    (fun st i hst => detectFromMap_inv _ _ (detectFromMap_inv _ _ hst)) _ st h

theorem slideLatin_inv (idx : SearchIndexes) (chars : JSStr) (size : Nat) {st : DetState}
    (h : DetInv st) : DetInv (slideLatin idx chars size st) := by
  unfold slideLatin
  exact foldl_detInv _
    (fun st i hst => detectFromMap_inv _ _ (detectFromMap_inv _ _ (detectFromMap_inv _ _ hst)))
    _ st h

theorem jpSizeLoop_inv (idx : SearchIndexes) (chars : JSStr) :
    ∀ (n : Nat) (st : DetState), DetInv st → DetInv (jpSizeLoop idx chars n st) := by
  intro n
  induction n using Nat.strong_induction_on with
  | _ n ih =>
    intro st h
    match n with
    | 0 => exact h
    | 1 => exact h
    | (s + 2) =>
      rw [jpSizeLoop]
      refine ih (s + 1) (by omega) _ ?_
      by_cases hlen : chars.length < s + 2
      · rw [if_pos hlen]; exact h
      · rw [if_neg hlen]; exact slideJP_inv idx chars (s + 2) h

theorem latinSizeLoop_inv (idx : SearchIndexes) (chars : JSStr) :
    ∀ (n : Nat) (st : DetState), DetInv st → DetInv (latinSizeLoop idx chars n st) := by
  intro n
  induction n using Nat.strong_induction_on with
  | _ n ih =>
    intro st h
    match n with
    | 0 => exact h
    | 1 => exact h
    | 2 => exact h
    | (s + 3) =>
      rw [latinSizeLoop]
      refine ih (s + 2) (by omega) _ ?_
      by_cases hlen : chars.length < s + 3
      · rw [if_pos hlen]; exact h
      · rw [if_neg hlen]; exact slideLatin_inv idx chars (s + 3) h

/-- C4: `detect` runs the token pass over all four maps, then the
secondary-script sliding-window pass (sizes 6 down to 2, longer first,
secondary-name and alias maps), then the Latin pass (sizes 12 down to 3,
primary-name, transliteration and alias maps), deduplicating by id with
the first occurrence winning; the returned list has pairwise distinct ids
in strictly ascending order. -/
theorem detect_spec_correct :
    ∀ (idx : SearchIndexes) (text : JSStr),
      detectFromPastedText idx text = detectSpec idx text ∧
      (detectFromPastedText idx text).Pairwise (fun a b => a.dex < b.dex) := by
  intro idx text
  have heq : detectFromPastedText idx text = detectSpec idx text := by
    unfold detectFromPastedText detectSpec
    dsimp only
    rw [funext (fun st => funext (fun run : JSStr => jpSizeLoop_six idx (normalize run) st)),
      funext (fun st => funext (fun run : JSStr => latinSizeLoop_twelve idx (normalize run) st))]
  refine ⟨heq, ?_⟩
  unfold detectFromPastedText
  dsimp only
  set st3 := (splitRuns isAsciiLetter text).foldl
    (fun st run => latinSizeLoop idx (normalize run) 12 st)
    ((splitRuns isJPChar text).foldl
      (fun st run => jpSizeLoop idx (normalize run) 6 st)
      ((splitRuns isTokenChar text).foldl
        (fun st token =>
          detectFromMap idx.aliasMap token
            (detectFromMap idx.roomajiMap token
              (detectFromMap idx.jaMap token (detectFromMap idx.enMap token st))))
        (([], []) : DetState))) with hst3
  have hinv : DetInv st3 := by
    rw [hst3]
    refine foldl_detInv _ (fun st run h => latinSizeLoop_inv idx (normalize run) 12 st h) _ _ ?_
    refine foldl_detInv _ (fun st run h => jpSizeLoop_inv idx (normalize run) 6 st h) _ _ ?_
    refine foldl_detInv _ (fun st token h =>
      detectFromMap_inv _ _ (detectFromMap_inv _ _
        (detectFromMap_inv _ _ (detectFromMap_inv _ _ h)))) _ _ detInv_init
  have hsorted : (List.insertionSort dexRel st3.2).Pairwise dexRel :=
    List.sorted_insertionSort dexRel st3.2
  have hneq : (List.insertionSort dexRel st3.2).Pairwise (fun a b => a.dex ≠ b.dex) := by
    refine (List.Perm.pairwise_iff ?_ (List.perm_insertionSort dexRel st3.2)).mpr hinv.1
    intro a b hab
    exact fun habs => hab habs.symm
  exact (hsorted.and hneq).imp (fun hab => Nat.lt_of_le_of_ne hab.1 hab.2)

end DexBridge
